import Mathlib

set_option maxRecDepth 8192

/- Shallow embedding of the summari.ai frontend response-normalization logic
(`normalizeQueryResponse` in src/services/api.ts) and the web-content link
extraction (`extractLinksFromWebContent` in src/components/ResultsDisplay.tsx).
Both are pure functions over JavaScript values / strings; the ambient current
time used by the normalizer's timestamp fallback is passed as an explicit
`now` argument. -/

/-- JavaScript runtime values, as far as the normalizer observes them.
The code performs no numeric arithmetic, so JS numbers are modelled as
rationals plus a separate NaN value (`typeof NaN` is still `'number'`).
Object fields are an insertion-ordered association list; objects reachable
from JavaScript have unique keys, and all objects this development builds
are canonicalized through `mkObj` below. -/
inductive JSVal : Type where
  | undefined : JSVal
  | null : JSVal
  | bool : Bool → JSVal
  | num : ℚ → JSVal
  | nan : JSVal
  | str : String → JSVal
  | arr : List JSVal → JSVal
  | obj : List (String × JSVal) → JSVal

mutual

/-- Structural equality test on JS values (used to state concrete
inequalities, since `DecidableEq` cannot be derived for this nested
inductive type). -/
def jsBeq : JSVal → JSVal → Bool
  | .undefined, .undefined => true
  | .null, .null => true
  | .bool a, .bool b => decide (a = b)
  | .num a, .num b => decide (a = b)
  | .nan, .nan => true
  | .str a, .str b => decide (a = b)
  | .arr xs, .arr ys => jsBeqList xs ys
  | .obj fs, .obj gs => jsBeqFields fs gs
  | _, _ => false

/-- Pointwise `jsBeq` on value lists. -/
def jsBeqList : List JSVal → List JSVal → Bool
  | [], [] => true
  | x :: xs, y :: ys => jsBeq x y && jsBeqList xs ys
  | _, _ => false

/-- Pointwise `jsBeq` on field lists. -/
def jsBeqFields : List (String × JSVal) → List (String × JSVal) → Bool
  | [], [] => true
  | (k, v) :: fs, (k', v') :: gs => decide (k = k') && jsBeq v v' && jsBeqFields fs gs
  | _, _ => false

end

mutual

/-- `jsBeq` is reflexive. -/
def jsBeq_refl : (a : JSVal) → jsBeq a a = true
  | .undefined => rfl
  | .null => rfl
  | .bool _ => by simp [jsBeq]
  | .num _ => by simp [jsBeq]
  | .nan => rfl
  | .str _ => by simp [jsBeq]
  | .arr xs => by simp [jsBeq]; exact jsBeqList_refl xs
  | .obj fs => by simp [jsBeq]; exact jsBeqFields_refl fs

/-- `jsBeqList` is reflexive. -/
def jsBeqList_refl : (xs : List JSVal) → jsBeqList xs xs = true
  | [] => rfl
  | x :: xs => by
      simp [jsBeqList]
      exact ⟨jsBeq_refl x, jsBeqList_refl xs⟩

/-- `jsBeqFields` is reflexive. -/
def jsBeqFields_refl : (fs : List (String × JSVal)) → jsBeqFields fs fs = true
  | [] => rfl
  | (k, v) :: fs => by
      simp [jsBeqFields]
      exact ⟨jsBeq_refl v, jsBeqFields_refl fs⟩

end

/-- Values that differ under `jsBeq` are distinct. -/
theorem ne_of_jsBeq_false {a b : JSVal} (h : jsBeq a b = false) : a ≠ b := by
  intro he
  subst he
  rw [jsBeq_refl a] at h
  cases h

/-- `v` is `null` or `undefined` (the values skipped by the `??` operator). -/
def isNullish : JSVal → Bool
  | .undefined => true
  | .null => true
  | _ => false

/-- The JS nullish-coalescing operator `a ?? b`. -/
def nullishOr (a b : JSVal) : JSVal :=
  if isNullish a then b else a

/-- JS `Boolean(v)` coercion: everything is truthy except `undefined`,
`null`, `false`, `0`, `NaN` and the empty string. -/
def jsTruthy : JSVal → Bool
  | .undefined => false
  | .null => false
  | .bool b => b
  | .num q => if q = 0 then false else true
  | .nan => false
  | .str s => if s = "" then false else true
  | .arr _ => true
  | .obj _ => true

/-- JS `typeof v === 'number'` (true for NaN as well). -/
def isNumberT : JSVal → Bool
  | .num _ => true
  | .nan => true
  | _ => false

/-- JS `Array.isArray(v)`. -/
def isJSArray : JSVal → Bool
  | .arr _ => true
  | _ => false

/-- Does the field list carry key `k`. -/
def containsKey : List (String × JSVal) → String → Bool
  | [], _ => false
  | (k', _) :: rest, k => if k' = k then true else containsKey rest k

/-- Value of key `k` in a field list; the LAST occurrence wins (matching the
JS object-literal rule that later entries overwrite earlier ones), and a
missing key reads as `undefined` exactly as in JS. -/
def lookupField (fs : List (String × JSVal)) (k : String) : JSVal :=
  fs.foldl (fun acc p => if p.1 = k then p.2 else acc) .undefined

/-- Write key `k` into a field list with JS object-literal semantics:
an existing key keeps its position and gets the new value, a fresh key is
appended. -/
def insertField (fs : List (String × JSVal)) (k : String) (v : JSVal) :
    List (String × JSVal) :=
  if containsKey fs k then fs.map (fun p => if p.1 = k then (k, v) else p)
  else fs ++ [(k, v)]

/-- Build the field list of a JS object literal from its (possibly
key-repeating) entry sequence: duplicates collapse to the first position
with the last value, as in `{a: 1, ...{a: 2}}`. -/
def mkObj (entries : List (String × JSVal)) : List (String × JSVal) :=
  entries.foldl (fun acc p => insertField acc p.1 p.2) []

/-- Optional-chained property access `v?.k`: reading a key off anything that
is not an object yields `undefined` instead of throwing; the source only
ever dereferences after an optional chain or behind a guard that the base
is an object, so the total model agrees with the code on all reachable
paths. -/
def jsOptGet : JSVal → String → JSVal
  | .obj fs, k => lookupField fs k
  | _, _ => .undefined

/-- The keys of an object value, in order. -/
def objFieldKeys : JSVal → List String
  | .obj fs => fs.map Prod.fst
  | _ => []

/-- Entries contributed by spreading a JS array into an object literal:
index keys `"0"`, `"1"`, ... -/
def idxFields : Nat → List JSVal → List (String × JSVal)
  | _, [] => []
  | n, x :: xs => (toString n, x) :: idxFields (n + 1) xs

/-- Entries contributed by `...(r?.metadata && typeof r.metadata === 'object'
? r.metadata : {})` (api.ts line 35): only objects and arrays pass the
truthiness plus `typeof` guard (null is falsy, primitives fail `typeof`),
everything else spreads as the empty object. -/
def metaSpread : JSVal → List (String × JSVal)
  | .obj fs => fs
  | .arr xs => idxFields 0 xs
  | _ => []

/-- The nine synthesized metadata entries of api.ts lines 25-34, in source
order. -/
def synthMeta (r : JSVal) : List (String × JSVal) :=
  [("document_name",
      nullishOr (jsOptGet r "document_name")
        (nullishOr (jsOptGet r "source")
          (jsOptGet (jsOptGet r "metadata") "document_name"))),
   ("best_sentence", jsOptGet r "best_sentence"),
   ("score", jsOptGet r "score"),
   ("summary", jsOptGet r "summary"),
   ("web_content", jsOptGet r "web_content"),
   ("refined_insight", jsOptGet r "refined_insight"),
   ("ppt_path", jsOptGet r "ppt_path"),
   ("file_name", jsOptGet r "file_name"),
   ("action_type", jsOptGet r "action_type")]

/-- The per-item mapping of api.ts lines 22-39: builds the normalized
result object `{content, metadata, similarity, source}`. -/
def normItem (r : JSVal) : JSVal :=
  .obj
    [("content",
        nullishOr (jsOptGet r "content")
          (nullishOr (jsOptGet r "summary")
            (nullishOr (jsOptGet r "best_sentence") (.str "")))),
     ("metadata", .obj (mkObj (synthMeta r ++ metaSpread (jsOptGet r "metadata")))),
     ("similarity",
        if isNumberT (jsOptGet r "similarity") then jsOptGet r "similarity"
        else if isNumberT (jsOptGet r "score") then jsOptGet r "score"
        else .undefined),
     ("source", nullishOr (jsOptGet r "source") (jsOptGet r "document_name"))]

/-- `normalizeQueryResponse` of api.ts lines 21-50. `now` is the string
`new Date().toISOString()` would produce at the call instant, passed
explicitly so the ambient clock dependence is visible. -/
def normalizeQueryResponse (raw : JSVal) (now : String) : JSVal :=
  let items : List JSVal :=
    match jsOptGet raw "results" with
    | .arr rs => rs.map normItem
    | _ => []
  .obj
    [("success", .bool (jsTruthy (jsOptGet raw "success"))),
     ("message", nullishOr (jsOptGet raw "message") (.str "")),
     ("results", .arr items),
     ("action",
        nullishOr (jsOptGet raw "action")
          (nullishOr (jsOptGet raw "action_type") (.str "search"))),
     ("timestamp", nullishOr (jsOptGet raw "timestamp") (.str now)),
     ("query", nullishOr (jsOptGet raw "query") (.str "")),
     ("translation", jsOptGet raw "translation")]

/- ===== Web-content link extractor (ResultsDisplay.tsx lines 186-224) ===== -/

/-- The whitespace class shared by JS `String.trim` and the `\s` regex
class, restricted to the characters that can realistically occur here
(ASCII whitespace, NBSP, the Unicode line separators and the BOM). -/
def isWsChar (c : Char) : Bool :=
  c = ' ' || c = '\t' || c = '\n' || c = '\x0b' || c = '\x0c' || c = '\r' ||
  c = ' ' || c = ' ' || c = ' ' || c = '﻿'

/-- Characters the JS `.` regex atom refuses to match (line terminators). -/
def isDotExcluded (c : Char) : Bool :=
  c = '\n' || c = '\r' || c = ' ' || c = ' '

/-- JS `String.trim` on a character list. -/
def trimChars (l : List Char) : List Char :=
  ((l.dropWhile isWsChar).reverse.dropWhile isWsChar).reverse

/-- Right half of `trimChars` (what the trailing regex `\s*$` consumes). -/
def trimRightChars (l : List Char) : List Char :=
  (l.reverse.dropWhile isWsChar).reverse

/-- `text.split(/\r?\n/)`: cut at each `\n`, absorbing one `\r` directly
before it; a lone `\r` stays inside its line. -/
def splitLinesAux (cur : List Char) : List Char → List (List Char)
  | [] => [cur.reverse]
  | '\r' :: '\n' :: rest => cur.reverse :: splitLinesAux [] rest
  | '\n' :: rest => cur.reverse :: splitLinesAux [] rest
  | c :: rest => splitLinesAux (c :: cur) rest

/-- The line list of a text. -/
def splitLines (l : List Char) : List (List Char) :=
  splitLinesAux [] l

/-- ASCII lowercasing, the effect of the `i` regex flag on the ASCII-only
patterns used by the extractor. -/
def asciiLower (c : Char) : Char :=
  if 'A' ≤ c ∧ c ≤ 'Z' then Char.ofNat (c.toNat + 32) else c

/-- Character-list prefix test. -/
def isPrefixL : List Char → List Char → Bool
  | [], _ => true
  | _ :: _, [] => false
  | a :: as, b :: bs => decide (a = b) && isPrefixL as bs

/-- Character-list infix (substring) test. -/
def isInfixL (pat : List Char) : List Char → Bool
  | [] => isPrefixL pat []
  | s@(_ :: rest) => isPrefixL pat s || isInfixL pat rest

/-- Case-insensitive substring test, the effect of `/pat/i.test(s)` for an
ASCII pattern `pat`. -/
def ciContains (s pat : List Char) : Bool :=
  isInfixL (pat.map asciiLower) (s.map asciiLower)

/-- `/^https?:\/\//i.test(next)` (ResultsDisplay.tsx line 214). -/
def isUrlLine (l : List Char) : Bool :=
  isPrefixL ("http://".data) (l.map asciiLower) ||
  isPrefixL ("https://".data) (l.map asciiLower)

/-- `/^\s*🔗\s*\*\*/.test(next)` (ResultsDisplay.tsx line 218). -/
def isBulletStart (l : List Char) : Bool :=
  match l.dropWhile isWsChar with
  | '🔗' :: rest => isPrefixL ['*', '*'] (rest.dropWhile isWsChar)
  | _ => false

/-- `/^###\s*/.test(next)` (ResultsDisplay.tsx line 218); the trailing
`\s*` always matches, so this is a plain prefix test. -/
def isHeadingStart (l : List Char) : Bool :=
  isPrefixL ['#', '#', '#'] l

/-- The capture of the lazy group in `/^\s*🔗\s*\*\*(.+?)\*\*/`: the
shortest non-empty run of `.`-matchable characters followed by `**`.
Returns `none` when no closing `**` is reachable (including when a line
terminator character intervenes, which `.` cannot cross). -/
def bulletCaptureAux (acc : List Char) : List Char → Option (List Char)
  | '*' :: '*' :: _ => some acc.reverse
  | c :: rest => if isDotExcluded c then none else bulletCaptureAux (c :: acc) rest
  | [] => none

/-- The title capture of the bullet regex `/^\s*🔗\s*\*\*(.+?)\*\*/`
applied to a line (ResultsDisplay.tsx line 206). -/
def bulletTitle (l : List Char) : Option (List Char) :=
  match l.dropWhile isWsChar with
  | '🔗' :: rest =>
      match rest.dropWhile isWsChar with
      | '*' :: '*' :: body =>
          match body with
          | [] => none
          | c :: more =>
              if isDotExcluded c then none else bulletCaptureAux [c] more
      | _ => none
  | _ => none

/-- The capture of `/^###\s*(.+?):\s*$/` applied to a line
(ResultsDisplay.tsx line 196): after `###`, greedy `\s*` takes the maximal
whitespace run, the lazy group then necessarily extends to the last colon
(only the final colon can be followed by whitespace alone), and when the
remainder between `###` and that colon is all whitespace, backtracking
hands the group exactly one whitespace character.  The group consists of
`.`-matchable characters, so a line terminator inside it kills the match. -/
def headingCapture (l : List Char) : Option (List Char) :=
  if isPrefixL ['#', '#', '#'] l then
    let rest := trimRightChars (l.drop 3)
    match rest.getLast? with
    | some ':' =>
        let body := rest.dropLast
        let g := body.dropWhile isWsChar
        let g' := if g = [] then
            match body.getLast? with
            | some c => [c]
            | none => []
          else g
        if g' = [] || g'.any isDotExcluded then none else some g'
    | _ => none
  else none

/-- One extracted `{title, url, section}` item (ResultsDisplay.tsx line
186). -/
structure LinkEntry : Type where
  title : String
  url : String
  sectionLabel : Option String
deriving DecidableEq, Repr

/-- The inner URL scan of ResultsDisplay.tsx lines 210-219: from the lines
after a bullet, trim each line; skip empty ones; accept the first bare URL
line; stop empty-handed at a line that starts a new bullet or heading; and
walk past anything else. -/
def scanUrl : List (List Char) → Option (List Char)
  | [] => none
  | l :: ls =>
      let next := trimChars l
      if next = [] then scanUrl ls
      else if isUrlLine next then some next
      else if isBulletStart next || isHeadingStart next then none
      else scanUrl ls

/-- Canonicalization of a heading capture into the current section label
(ResultsDisplay.tsx lines 198-201). -/
def sectionOfHeading (h : List Char) : String :=
  if ciContains h ("Most Popular Results".data) then "Most Popular Results"
  else if ciContains h ("Latest Results".data) then "Latest Results"
  else String.mk h

/-- The main line loop of ResultsDisplay.tsx lines 191-222, carrying the
current section.  A heading line updates the section; a bullet line looks
ahead (without consuming lines) for its URL and emits an entry when both
the trimmed title and the URL are non-empty; every other line is skipped. -/
def extractAux (sec : Option String) : List (List Char) → List LinkEntry
  | [] => []
  | l :: ls =>
      let line := trimChars l
      match headingCapture line with
      | some h => extractAux (some (sectionOfHeading h)) ls
      | none =>
          match bulletTitle line with
          | some g =>
              let title : String := String.mk (trimChars g)
              let url : String := String.mk ((scanUrl ls).getD [])
              (if title ≠ "" ∧ url ≠ "" then [⟨title, url, sec⟩] else []) ++
                extractAux sec ls
          | none => extractAux sec ls

/-- `extractLinksFromWebContent` of ResultsDisplay.tsx lines 186-224. -/
def extractLinksFromWebContent (text : String) : List LinkEntry :=
  extractAux none (splitLines text.data)

/- ===== Lemmas about the JS value helpers ===== -/

/-- The key sequence of a field list. -/
def fieldKeys (fs : List (String × JSVal)) : List String :=
  fs.map Prod.fst

theorem nullishOr_of_not_nullish {v : JSVal} (d : JSVal)
    (h : isNullish v = false) : nullishOr v d = v := by
  simp [nullishOr, h]

theorem isNullish_nullishOr (v : JSVal) {d : JSVal}
    (h : isNullish d = false) : isNullish (nullishOr v d) = false := by
  unfold nullishOr
  by_cases hv : isNullish v = true
  · simp [hv, h]
  · simp at hv
    simp [hv]

theorem nullishOr_stable (v : JSVal) {d : JSVal} (e : JSVal)
    (h : isNullish d = false) : nullishOr (nullishOr v d) e = nullishOr v d :=
  nullishOr_of_not_nullish e (isNullish_nullishOr v h)

theorem containsKey_iff_mem {fs : List (String × JSVal)} {k : String} :
    containsKey fs k = true ↔ k ∈ fieldKeys fs := by
  induction fs with
  | nil => simp [containsKey, fieldKeys]
  | cons hd tl ih =>
      obtain ⟨k', v⟩ := hd
      by_cases hk : k' = k
      · subst hk
        simp [containsKey, fieldKeys]
      · simp [containsKey, hk, fieldKeys] at ih ⊢
        rw [ih]
        constructor
        · exact Or.inr
        · rintro (h | h)
          · exact absurd h.symm hk
          · exact h

theorem containsKey_eq_false_iff {fs : List (String × JSVal)} {k : String} :
    containsKey fs k = false ↔ k ∉ fieldKeys fs := by
  rw [← containsKey_iff_mem]
  constructor
  · intro h hc
    rw [h] at hc
    cases hc
  · intro h
    by_cases hc : containsKey fs k = true
    · exact absurd hc h
    · simp at hc
      exact hc

theorem containsKey_append (fs gs : List (String × JSVal)) (k : String) :
    containsKey (fs ++ gs) k = (containsKey fs k || containsKey gs k) := by
  induction fs with
  | nil => simp [containsKey]
  | cons hd tl ih =>
      obtain ⟨k', v⟩ := hd
      by_cases hk : k' = k
      · simp [containsKey, hk]
      · simp [containsKey, hk, ih]

/-- Fold characterization of `lookupField` with an arbitrary accumulator. -/
theorem foldl_lookup (k : String) (fs : List (String × JSVal)) :
    ∀ a : JSVal,
      fs.foldl (fun acc p => if p.1 = k then p.2 else acc) a =
        if containsKey fs k then lookupField fs k else a := by
  induction fs with
  | nil => intro a; simp [containsKey]
  | cons hd tl ih =>
      intro a
      obtain ⟨k', v⟩ := hd
      by_cases hk : k' = k
      · subst hk
        simp only [List.foldl_cons, containsKey, lookupField, if_pos rfl]
        rw [ih, ih]
        split <;> simp
      · simp only [List.foldl_cons, containsKey, lookupField, if_neg hk]
        rw [ih, ih]
        split <;> simp

theorem lookupField_cons (k' : String) (v : JSVal)
    (fs : List (String × JSVal)) (k : String) :
    lookupField ((k', v) :: fs) k =
      if containsKey fs k then lookupField fs k
      else if k' = k then v else .undefined := by
  show List.foldl _ (if k' = k then v else JSVal.undefined) fs = _
  rw [foldl_lookup]

theorem lookupField_append (fs gs : List (String × JSVal)) (k : String) :
    lookupField (fs ++ gs) k =
      if containsKey gs k then lookupField gs k else lookupField fs k := by
  show List.foldl _ _ (fs ++ gs) = _
  rw [List.foldl_append, foldl_lookup]
  rfl

/-- Folding `insertField` over an entry sequence from a given start list;
`mkObj es` is `foldIns [] es`. -/
def foldIns (a q : List (String × JSVal)) : List (String × JSVal) :=
  q.foldl (fun acc p => insertField acc p.1 p.2) a

theorem mkObj_eq_foldIns (es : List (String × JSVal)) : mkObj es = foldIns [] es := rfl

theorem foldIns_append (a q q' : List (String × JSVal)) :
    foldIns a (q ++ q') = foldIns (foldIns a q) q' := by
  simp [foldIns, List.foldl_append]

theorem fieldKeys_map_update (fs : List (String × JSVal)) (k : String) (v : JSVal) :
    fieldKeys (fs.map (fun p => if p.1 = k then (k, v) else p)) = fieldKeys fs := by
  induction fs with
  | nil => rfl
  | cons hd tl ih =>
      obtain ⟨k', v'⟩ := hd
      by_cases hk : k' = k
      · subst hk
        simp [fieldKeys] at ih ⊢
        exact ih
      · simp [fieldKeys, hk] at ih ⊢
        exact ih

theorem map_update_of_not_contains {fs : List (String × JSVal)} {k : String}
    (v : JSVal) (h : containsKey fs k = false) :
    fs.map (fun p => if p.1 = k then (k, v) else p) = fs := by
  induction fs with
  | nil => rfl
  | cons hd tl ih =>
      obtain ⟨k', v'⟩ := hd
      by_cases hk : k' = k
      · subst hk
        simp [containsKey] at h
      · simp [containsKey, hk] at h
        simp [hk, ih h]

theorem containsKey_congr_keys {fs gs : List (String × JSVal)} (k : String)
    (h : fieldKeys fs = fieldKeys gs) : containsKey fs k = containsKey gs k := by
  by_cases hc : containsKey gs k = true
  · rw [hc]
    rw [containsKey_iff_mem] at hc ⊢
    rw [h]
    exact hc
  · simp at hc
    rw [hc]
    rw [containsKey_eq_false_iff] at hc ⊢
    rw [h]
    exact hc

theorem fieldKeys_insertField (fs : List (String × JSVal)) (k : String) (v : JSVal) :
    fieldKeys (insertField fs k v) =
      if containsKey fs k then fieldKeys fs else fieldKeys fs ++ [k] := by
  unfold insertField
  by_cases hc : containsKey fs k
  · simp [hc, fieldKeys_map_update]
  · simp [hc, fieldKeys]

theorem nodup_fieldKeys_insertField {fs : List (String × JSVal)} (k : String)
    (v : JSVal) (h : (fieldKeys fs).Nodup) :
    (fieldKeys (insertField fs k v)).Nodup := by
  rw [fieldKeys_insertField]
  by_cases hc : containsKey fs k
  · simpa [hc] using h
  · simp only [hc, if_neg]
    simp [List.nodup_append, h]
    intro hk
    simp at hc
    rw [containsKey_eq_false_iff] at hc
    exact hc hk

theorem lookup_map_update {fs : List (String × JSVal)} (k1 : String) (v1 : JSVal)
    (k : String) (hnd : (fieldKeys fs).Nodup) (hc : containsKey fs k1 = true) :
    lookupField (fs.map (fun p => if p.1 = k1 then (k1, v1) else p)) k =
      if k1 = k then v1 else lookupField fs k := by
  induction fs with
  | nil => simp [containsKey] at hc
  | cons hd tl ih =>
      obtain ⟨k', v'⟩ := hd
      have hnd' : (fieldKeys tl).Nodup := (List.nodup_cons.mp hnd).2
      by_cases hk : k' = k1
      · subst hk
        have hctl : containsKey tl k' = false := by
          rw [containsKey_eq_false_iff]
          exact (List.nodup_cons.mp hnd).1
        simp only [List.map_cons, if_pos rfl]
        rw [map_update_of_not_contains v1 hctl]
        rw [lookupField_cons, lookupField_cons]
        by_cases hkk : k' = k
        · subst hkk
          simp [hctl]
        · simp [hkk]
      · have hctl : containsKey tl k1 = true := by
          simp [containsKey, hk] at hc
          exact hc
        simp only [List.map_cons, if_neg hk]
        rw [lookupField_cons, lookupField_cons]
        have hck : containsKey (tl.map (fun p => if p.1 = k1 then (k1, v1) else p)) k
            = containsKey tl k := containsKey_congr_keys k (fieldKeys_map_update tl k1 v1)
        rw [hck, ih hnd' hctl]
        by_cases hq : containsKey tl k = true
        · simp [hq]
        · simp only [Bool.not_eq_true] at hq
          by_cases hk1k : k1 = k
          · subst hk1k
            rw [containsKey_iff_mem] at hctl
            rw [containsKey_eq_false_iff] at hq
            exact absurd hctl hq
          · simp [hq, hk1k]

theorem lookup_insertField {fs : List (String × JSVal)} (k1 : String) (v1 : JSVal)
    (k : String) (hnd : (fieldKeys fs).Nodup) :
    lookupField (insertField fs k1 v1) k = if k1 = k then v1 else lookupField fs k := by
  unfold insertField
  by_cases hc : containsKey fs k1
  · rw [if_pos hc]
    exact lookup_map_update k1 v1 k hnd hc
  · rw [if_neg hc]
    rw [lookupField_append]
    by_cases hk : k1 = k
    · subst hk
      simp [containsKey, lookupField_cons, lookupField]
    · simp [containsKey, hk, lookupField_cons, lookupField]

/-- Folding entries with fresh, pairwise distinct keys just appends them. -/
theorem foldIns_append_disjoint :
    ∀ (q a : List (String × JSVal)), (fieldKeys q).Nodup →
      (∀ k ∈ fieldKeys q, containsKey a k = false) → foldIns a q = a ++ q := by
  intro q
  induction q with
  | nil => intro a _ _; simp [foldIns]
  | cons hd tl ih =>
      intro a hnd hdis
      obtain ⟨k, v⟩ := hd
      have hk : containsKey a k = false := hdis k (by simp [fieldKeys])
      have step : foldIns a ((k, v) :: tl) = foldIns (a ++ [(k, v)]) tl := by
        simp [foldIns, insertField, hk]
      rw [step, ih (a ++ [(k, v)])]
      · simp
      · exact (List.nodup_cons.mp (by simpa [fieldKeys] using hnd)).2
      · intro k' hk'
        rw [containsKey_append]
        have h1 : containsKey a k' = false := hdis k' (List.mem_cons_of_mem _ hk')
        have h2 : k ≠ k' := by
          intro he
          subst he
          exact (List.nodup_cons.mp (by simpa [fieldKeys] using hnd)).1 hk'
        simp [h1, containsKey, h2]

/-- `mkObj` does nothing to a field list whose keys are already unique. -/
theorem mkObj_of_nodup {es : List (String × JSVal)} (h : (fieldKeys es).Nodup) :
    mkObj es = es := by
  rw [mkObj_eq_foldIns, foldIns_append_disjoint es [] h]
  · simp
  · intro k _
    rfl

/-- Folding a field list `p` into an accumulator that carries exactly the
keys of `p` (in order, behind an untouched prefix) rewrites the values in
place. -/
theorem foldIns_update :
    ∀ (p pre a : List (String × JSVal)), fieldKeys a = fieldKeys p →
      (fieldKeys p).Nodup → (∀ k ∈ fieldKeys p, containsKey pre k = false) →
      foldIns (pre ++ a) p = pre ++ p := by
  intro p
  induction p with
  | nil =>
      intro pre a hk _ _
      have : a = [] := by
        have := congrArg List.length hk
        simpa [fieldKeys] using this
      subst this
      simp [foldIns]
  | cons hd tl ih =>
      intro pre a hk hnd hdis
      obtain ⟨k, v⟩ := hd
      match a with
      | [] => simp [fieldKeys] at hk
      | ⟨ka, a0⟩ :: a'' =>
          have hka : ka = k := by simpa [fieldKeys] using congrArg (·.headI) hk
          subst hka
          have hk'' : fieldKeys a'' = fieldKeys tl := by
            simpa [fieldKeys] using congrArg List.tail hk
          have hndtl : (fieldKeys tl).Nodup :=
            (List.nodup_cons.mp (by simpa [fieldKeys] using hnd)).2
          have hknotl : ka ∉ fieldKeys tl :=
            (List.nodup_cons.mp (by simpa [fieldKeys] using hnd)).1
          have hcpre : containsKey pre ka = false := hdis ka (by simp [fieldKeys])
          have hca'' : containsKey a'' ka = false := by
            rw [containsKey_eq_false_iff, hk'']
            exact hknotl
          have hcall : containsKey (pre ++ (ka, a0) :: a'') ka = true := by
            rw [containsKey_append]
            simp [containsKey]
          have step : foldIns (pre ++ (ka, a0) :: a'') ((ka, v) :: tl)
              = foldIns ((pre ++ [(ka, v)]) ++ a'') tl := by
            simp only [foldIns, List.foldl_cons]
            congr 1
            show insertField (pre ++ (ka, a0) :: a'') ka v = (pre ++ [(ka, v)]) ++ a''
            unfold insertField
            rw [if_pos hcall, List.map_append]
            rw [map_update_of_not_contains v hcpre]
            simp only [List.map_cons, if_pos rfl]
            rw [map_update_of_not_contains v hca'']
            simp
          rw [step, ih (pre ++ [(ka, v)]) a'' hk'' hndtl]
          · simp
          · intro k' hk'
            rw [containsKey_append]
            have h1 : containsKey pre k' = false :=
              hdis k' (List.mem_cons_of_mem _ hk')
            have h2 : ka ≠ k' := by
              intro he
              subst he
              exact hknotl hk'
            simp [h1, containsKey, h2]

/-- Folding arbitrary entries into a unique-keyed accumulator produces the
(re-valued) accumulator followed by a block of fresh, unique keys. -/
theorem foldIns_decomp :
    ∀ (q a : List (String × JSVal)), (fieldKeys a).Nodup →
      ∃ b ex, foldIns a q = b ++ ex ∧ fieldKeys b = fieldKeys a ∧
        (fieldKeys ex).Nodup ∧ ∀ k ∈ fieldKeys ex, k ∉ fieldKeys b := by
  intro q
  induction q with
  | nil =>
      intro a _
      exact ⟨a, [], by simp [foldIns], rfl, by simp [fieldKeys], by simp [fieldKeys]⟩
  | cons hd tl ih =>
      intro a hnd
      obtain ⟨k, v⟩ := hd
      have hstep : foldIns a ((k, v) :: tl) = foldIns (insertField a k v) tl := by
        simp [foldIns]
      by_cases hc : containsKey a k = true
      · have hkeys : fieldKeys (insertField a k v) = fieldKeys a := by
          rw [fieldKeys_insertField, if_pos hc]
        obtain ⟨b, ex, e1, e2, e3, e4⟩ := ih (insertField a k v) (by rw [hkeys]; exact hnd)
        exact ⟨b, ex, by rw [hstep, e1], by rw [e2, hkeys], e3, e4⟩
      · simp only [Bool.not_eq_true] at hc
        have hknotin : k ∉ fieldKeys a := containsKey_eq_false_iff.mp hc
        have hkeys : fieldKeys (insertField a k v) = fieldKeys a ++ [k] := by
          rw [fieldKeys_insertField, if_neg (by simp [hc])]
        have hnd1 : (fieldKeys (insertField a k v)).Nodup := by
          rw [hkeys]
          simp [List.nodup_append, hnd]
          intro hmem
          exact hknotin hmem
        obtain ⟨b1, ex1, e1, e2, e3, e4⟩ := ih (insertField a k v) hnd1
        rw [hkeys] at e2
        have hlen : (fieldKeys a).length = a.length := by simp [fieldKeys]
        have hb1split : b1 = b1.take a.length ++ b1.drop a.length :=
          (List.take_append_drop _ _).symm
        have hkt : fieldKeys (b1.take a.length) = fieldKeys a := by
          show List.map Prod.fst (b1.take a.length) = fieldKeys a
          rw [List.map_take, show List.map Prod.fst b1 = fieldKeys a ++ [k] from e2]
          rw [← hlen, List.take_left]
        have hkd : fieldKeys (b1.drop a.length) = [k] := by
          show List.map Prod.fst (b1.drop a.length) = [k]
          rw [List.map_drop, show List.map Prod.fst b1 = fieldKeys a ++ [k] from e2]
          rw [← hlen, List.drop_left]
        obtain ⟨w, hw⟩ : ∃ w, b1.drop a.length = [(k, w)] := by
          match hd : b1.drop a.length with
          | [] => rw [hd] at hkd; simp [fieldKeys] at hkd
          | ⟨kx, wx⟩ :: rest =>
              rw [hd] at hkd
              simp [fieldKeys] at hkd
              obtain ⟨hk1, hk2⟩ := hkd
              have : rest = [] := by
                cases rest with
                | nil => rfl
                | cons y ys => simp at hk2
              subst this
              exact ⟨wx, by rw [hk1]⟩
        have hkex1 : k ∉ fieldKeys ex1 := by
          intro hmem
          have hnb := e4 k hmem
          rw [e2] at hnb
          exact hnb (List.mem_append_right _ (by simp))
        refine ⟨b1.take a.length, (k, w) :: ex1, ?_, hkt, ?_, ?_⟩
        · rw [hstep, e1]
          conv_lhs => rw [hb1split, hw]
          simp
        · show (k :: fieldKeys ex1).Nodup
          rw [List.nodup_cons]
          exact ⟨hkex1, e3⟩
        · intro k' hk'
          rcases List.mem_cons.mp hk' with hk' | hk'
          · subst hk'
            rw [hkt]
            exact hknotin
          · intro hmem
            have hnb := e4 k' hk'
            rw [e2] at hnb
            rw [hkt] at hmem
            exact hnb (List.mem_append_left _ hmem)

/-- Looking a key up after folding entries into a unique-keyed accumulator:
keys written by the fold take their last written value, everything else
still reads from the accumulator. -/
theorem lookupField_foldIns :
    ∀ (q a : List (String × JSVal)) (k : String), (fieldKeys a).Nodup →
      lookupField (foldIns a q) k =
        if containsKey q k then lookupField q k else lookupField a k := by
  intro q
  induction q with
  | nil => intro a k _; simp [foldIns, containsKey]
  | cons hd tl ih =>
      intro a k hnd
      obtain ⟨k1, v1⟩ := hd
      have hstep : foldIns a ((k1, v1) :: tl) = foldIns (insertField a k1 v1) tl := by
        simp [foldIns]
      rw [hstep, ih (insertField a k1 v1) k (nodup_fieldKeys_insertField k1 v1 hnd)]
      rw [lookup_insertField k1 v1 k hnd, lookupField_cons]
      show _ = if (if k1 = k then true else containsKey tl k) = true then _ else _
      by_cases hq : containsKey tl k = true
      · simp [hq]
      · simp only [Bool.not_eq_true] at hq
        by_cases hk : k1 = k
        · subst hk
          simp [hq]
        · simp [hq, hk]

/-- Re-merging a same-keyed synthesized block in front of an already merged
object leaves the object unchanged: the spread block rewrites every
synthesized value back, and the extra keys re-append in order. -/
theorem mkObj_absorb_of_keys (s s' sp : List (String × JSVal))
    (hk : fieldKeys s' = fieldKeys s) (hnd : (fieldKeys s).Nodup) :
    mkObj (s' ++ mkObj (s ++ sp)) = mkObj (s ++ sp) := by
  have hnds' : (fieldKeys s').Nodup := by rw [hk]; exact hnd
  have hm : mkObj (s ++ sp) = foldIns s sp := by
    rw [mkObj_eq_foldIns, foldIns_append, ← mkObj_eq_foldIns, mkObj_of_nodup hnd]
  obtain ⟨b, ex, e1, e2, e3, e4⟩ := foldIns_decomp sp s hnd
  have hndb : (fieldKeys b).Nodup := by rw [e2]; exact hnd
  rw [mkObj_eq_foldIns (s' ++ _), foldIns_append, ← mkObj_eq_foldIns,
    mkObj_of_nodup hnds', hm, e1, foldIns_append]
  have hb : foldIns s' b = b := by
    have := foldIns_update b [] s' (by rw [hk, ← e2]) hndb (by intro k _; rfl)
    simpa using this
  rw [hb, foldIns_append_disjoint ex b e3]
  intro k hkm
  rw [containsKey_eq_false_iff]
  exact e4 k hkm

/- ===== Lemmas about the link extractor ===== -/

theorem scanUrl_cons (l : List Char) (ls : List (List Char)) :
    scanUrl (l :: ls) =
      if trimChars l = [] then scanUrl ls
      else if isUrlLine (trimChars l) then some (trimChars l)
      else if isBulletStart (trimChars l) || isHeadingStart (trimChars l) then none
      else scanUrl ls := rfl

theorem isUrlLine_nil : isUrlLine [] = false := rfl

theorem isBulletStart_nil : isBulletStart [] = false := rfl

theorem isHeadingStart_nil : isHeadingStart [] = false := rfl

/-- A line whose trimmed form is empty is neither a URL line, nor a bullet
start, nor a heading start. -/
theorem blank_line_not_special {p : List Char} (h : trimChars p = []) :
    isUrlLine (trimChars p) = false ∧ isBulletStart (trimChars p) = false ∧
      isHeadingStart (trimChars p) = false := by
  rw [h]
  exact ⟨rfl, rfl, rfl⟩

/-- C8 (amended): the URL search starts at the line immediately after the
bullet and accepts the first line whose trimmed form is a bare URL; it
abandons the entry at the first line that starts a new bullet or heading
(or at end of input); and it passes over every earlier line that is none
of those — blank lines AND any other non-matching line, not blank lines
only as the claim stated.  Formally, the scan returns `some u` exactly
when the line list splits as a block of passed-over lines — each neither a
URL nor a bullet start nor a heading start after trimming — followed by a
line trimming to the accepted URL `u`. -/
theorem scanUrl_eq_some_iff :
    ∀ (ls : List (List Char)) (u : List Char),
      scanUrl ls = some u ↔
        ∃ pre l post, ls = pre ++ l :: post ∧ trimChars l = u ∧
          isUrlLine (trimChars l) = true ∧
          ∀ p ∈ pre, isUrlLine (trimChars p) = false ∧
            isBulletStart (trimChars p) = false ∧
            isHeadingStart (trimChars p) = false := by
  intro ls
  induction ls with
  | nil =>
      intro u
      constructor
      · intro h
        simp [scanUrl] at h
      · rintro ⟨pre, l, post, h, -⟩
        cases pre <;> simp at h
  | cons hd tl ih =>
      intro u
      rw [scanUrl_cons]
      by_cases h1 : trimChars hd = []
      · rw [if_pos h1, ih u]
        constructor
        · rintro ⟨pre, l, post, heq, h2, h3, h4⟩
          refine ⟨hd :: pre, l, post, by rw [heq]; rfl, h2, h3, ?_⟩
          intro p hp
          rcases List.mem_cons.mp hp with hp | hp
          · subst hp
            exact blank_line_not_special h1
          · exact h4 p hp
        · rintro ⟨pre, l, post, heq, h2, h3, h4⟩
          cases pre with
          | nil =>
              simp at heq
              obtain ⟨heq1, -⟩ := heq
              rw [← heq1, h1] at h3
              rw [isUrlLine_nil] at h3
              cases h3
          | cons p pre' =>
              simp at heq
              obtain ⟨-, heq2⟩ := heq
              exact ⟨pre', l, post, heq2, h2, h3,
                fun q hq => h4 q (List.mem_cons_of_mem _ hq)⟩
      · rw [if_neg h1]
        by_cases h2 : isUrlLine (trimChars hd) = true
        · rw [if_pos h2]
          constructor
          · intro h
            have hu : trimChars hd = u := by
              injection h
            exact ⟨[], hd, tl, rfl, hu, h2, by intro p hp; cases hp⟩
          · rintro ⟨pre, l, post, heq, h3, h4, h5⟩
            cases pre with
            | nil =>
                simp at heq
                obtain ⟨heq1, -⟩ := heq
                rw [← heq1] at h3
                rw [h3]
            | cons p pre' =>
                simp at heq
                obtain ⟨heq1, -⟩ := heq
                have := (h5 p (by simp)).1
                rw [heq1] at h2
                rw [h2] at this
                cases this
        · simp only [Bool.not_eq_true] at h2
          rw [h2, if_neg (by simp)]
          by_cases h3 : (isBulletStart (trimChars hd) || isHeadingStart (trimChars hd)) = true
          · rw [if_pos h3]
            constructor
            · intro h
              cases h
            · rintro ⟨pre, l, post, heq, h4, h5, h6⟩
              cases pre with
              | nil =>
                  simp at heq
                  obtain ⟨heq1, -⟩ := heq
                  rw [← heq1] at h5
                  rw [h5] at h2
                  cases h2
              | cons p pre' =>
                  simp at heq
                  obtain ⟨heq1, -⟩ := heq
                  have hb := (h6 p (by simp)).2.1
                  have hh := (h6 p (by simp)).2.2
                  rw [heq1] at h3
                  rw [hb, hh] at h3
                  cases h3
          · rw [if_neg h3, ih u]
            simp only [Bool.or_eq_true, not_or, Bool.not_eq_true] at h3
            constructor
            · rintro ⟨pre, l, post, heq, h4, h5, h6⟩
              refine ⟨hd :: pre, l, post, by rw [heq]; rfl, h4, h5, ?_⟩
              intro p hp
              rcases List.mem_cons.mp hp with hp | hp
              · subst hp
                exact ⟨h2, h3.1, h3.2⟩
              · exact h6 p hp
            · rintro ⟨pre, l, post, heq, h4, h5, h6⟩
              cases pre with
              | nil =>
                  simp at heq
                  obtain ⟨heq1, -⟩ := heq
                  rw [← heq1] at h5
                  rw [h5] at h2
                  cases h2
              | cons p pre' =>
                  simp at heq
                  obtain ⟨-, heq2⟩ := heq
                  exact ⟨pre', l, post, heq2, h4, h5,
                    fun q hq => h6 q (List.mem_cons_of_mem _ hq)⟩

/- ===== Supporting lemmas for the claim theorems ===== -/

theorem fieldKeys_synthMeta (r : JSVal) :
    fieldKeys (synthMeta r) =
      ["document_name", "best_sentence", "score", "summary", "web_content",
       "refined_insight", "ppt_path", "file_name", "action_type"] := rfl

theorem nodup_synthMeta (r : JSVal) : (fieldKeys (synthMeta r)).Nodup := by
  rw [fieldKeys_synthMeta]
  decide

theorem mkObj_synth_append (r : JSVal) (sp : List (String × JSVal)) :
    mkObj (synthMeta r ++ sp) = foldIns (synthMeta r) sp := by
  rw [mkObj_eq_foldIns, foldIns_append, ← mkObj_eq_foldIns,
    mkObj_of_nodup (nodup_synthMeta r)]

theorem containsKey_insertField (fs : List (String × JSVal)) (k1 : String)
    (v1 : JSVal) (k : String) :
    containsKey (insertField fs k1 v1) k =
      (containsKey fs k || if k1 = k then true else false) := by
  unfold insertField
  by_cases hc : containsKey fs k1
  · rw [if_pos hc]
    rw [containsKey_congr_keys k (fieldKeys_map_update fs k1 v1)]
    by_cases hk : k1 = k
    · subst hk
      simp [hc]
    · simp [hk]
  · rw [if_neg hc, containsKey_append]
    simp [containsKey]

theorem containsKey_foldIns :
    ∀ (q a : List (String × JSVal)) (k : String),
      containsKey (foldIns a q) k = (containsKey a k || containsKey q k) := by
  intro q
  induction q with
  | nil => intro a k; simp [foldIns, containsKey]
  | cons hd tl ih =>
      intro a k
      obtain ⟨k1, v1⟩ := hd
      have hstep : foldIns a ((k1, v1) :: tl) = foldIns (insertField a k1 v1) tl := by
        simp [foldIns]
      rw [hstep, ih, containsKey_insertField]
      show _ = (containsKey a k || if k1 = k then true else containsKey tl k)
      by_cases hk : k1 = k
      · simp [hk]
      · simp [hk]

/-- What the spec calls the ordered-candidate-list rule: the first
non-nullish (present) candidate, else the default. -/
def specFirstPresent : List JSVal → JSVal → JSVal
  | [], d => d
  | v :: vs, d => if isNullish v then specFirstPresent vs d else v

/-- The claim's description of `Boolean(raw?.success)`: false exactly on
`undefined`, `null`, `false`, `0`, `NaN` and the empty string, true on
every other value. -/
def specBooleanCoercion (v : JSVal) : Bool :=
  !(jsBeq v .undefined || jsBeq v .null || jsBeq v (.bool false) ||
    jsBeq v (.num 0) || jsBeq v .nan || jsBeq v (.str ""))

theorem jsTruthy_eq_specBooleanCoercion (v : JSVal) :
    jsTruthy v = specBooleanCoercion v := by
  cases v with
  | bool b => cases b <;> rfl
  | num q =>
      by_cases hq : q = 0
      · subst hq
        simp [jsTruthy, specBooleanCoercion, jsBeq]
      · simp [jsTruthy, specBooleanCoercion, jsBeq, hq]
  | str s =>
      by_cases hs : s = ""
      · subst hs
        simp [jsTruthy, specBooleanCoercion, jsBeq]
      · simp [jsTruthy, specBooleanCoercion, jsBeq, hs]
  | _ => rfl

/- ===== Claim theorems ===== -/

/-- C1: `normalize` is total — on every input value (non-objects, null and
malformed objects included) it returns an object with exactly the
`NormalizedResponse` fields — and whenever `raw.results` is absent or not
an array, the returned `results` field is the empty sequence. -/
theorem normalize_total_and_results_default (raw : JSVal) (now : String) :
    objFieldKeys (normalizeQueryResponse raw now) =
      ["success", "message", "results", "action", "timestamp", "query",
       "translation"] ∧
    (isJSArray (jsOptGet raw "results") = false →
      jsOptGet (normalizeQueryResponse raw now) "results" = .arr []) := by
  constructor
  · rfl
  · intro h
    unfold normalizeQueryResponse
    cases hres : jsOptGet raw "results" <;> rw [hres] at h <;>
      simp_all [jsOptGet, lookupField, isJSArray]

/-- C1 witness: a null payload normalizes to a well-formed response with
empty results. -/
theorem normalize_total_and_results_default_witness :
    isJSArray (jsOptGet JSVal.null "results") = false ∧
    jsOptGet (normalizeQueryResponse JSVal.null "t") "results" = .arr [] :=
  ⟨by decide, (normalize_total_and_results_default JSVal.null "t").2 (by decide)⟩

/-- C2: the normalized `content` of a result item is the first present
(non-nullish) of `content`, `summary`, `best_sentence`, defaulting to the
empty string; in particular it is `""` when all three are absent. -/
theorem normalize_content_rule (r : JSVal) :
    jsOptGet (normItem r) "content" =
      specFirstPresent
        [jsOptGet r "content", jsOptGet r "summary", jsOptGet r "best_sentence"]
        (.str "") ∧
    (isNullish (jsOptGet r "content") = true →
     isNullish (jsOptGet r "summary") = true →
     isNullish (jsOptGet r "best_sentence") = true →
     jsOptGet (normItem r) "content" = .str "") := by
  have hc : jsOptGet (normItem r) "content" =
      nullishOr (jsOptGet r "content")
        (nullishOr (jsOptGet r "summary")
          (nullishOr (jsOptGet r "best_sentence") (.str ""))) := by
    simp [normItem, jsOptGet, lookupField]
  constructor
  · rw [hc]
    rfl
  · intro h1 h2 h3
    rw [hc]
    simp [nullishOr, h1, h2, h3]

/-- C2 witness: an item carrying none of the three content fields
normalizes to the empty-string content. -/
theorem normalize_content_rule_witness :
    isNullish (jsOptGet (JSVal.obj [("x", JSVal.str "y")]) "content") = true ∧
    isNullish (jsOptGet (JSVal.obj [("x", JSVal.str "y")]) "summary") = true ∧
    isNullish (jsOptGet (JSVal.obj [("x", JSVal.str "y")]) "best_sentence") = true ∧
    jsOptGet (normItem (JSVal.obj [("x", JSVal.str "y")])) "content" = .str "" :=
  ⟨by decide, by decide, by decide,
    (normalize_content_rule (JSVal.obj [("x", JSVal.str "y")])).2
      (by decide) (by decide) (by decide)⟩

/-- C3: normalized `similarity` is the item's `similarity` when that is a
number, else its `score` when that is a number, else `undefined`; with the
two concrete precedence checks from the spec. -/
theorem normalize_similarity_rule (r : JSVal) :
    (isNumberT (jsOptGet r "similarity") = true →
      jsOptGet (normItem r) "similarity" = jsOptGet r "similarity") ∧
    (isNumberT (jsOptGet r "similarity") = false →
     isNumberT (jsOptGet r "score") = true →
      jsOptGet (normItem r) "similarity" = jsOptGet r "score") ∧
    (isNumberT (jsOptGet r "similarity") = false →
     isNumberT (jsOptGet r "score") = false →
      jsOptGet (normItem r) "similarity" = .undefined) ∧
    jsOptGet (normItem (.obj [("similarity", .num (1/2)), ("score", .num (9/10))]))
      "similarity" = .num (1/2) ∧
    jsOptGet (normItem (.obj [("score", .num (4/5))])) "similarity" = .num (4/5) := by
  have hs : jsOptGet (normItem r) "similarity" =
      (if isNumberT (jsOptGet r "similarity") then jsOptGet r "similarity"
       else if isNumberT (jsOptGet r "score") then jsOptGet r "score"
       else .undefined) := by
    simp [normItem, jsOptGet, lookupField]
  refine ⟨?_, ?_, ?_, ?_, ?_⟩
  · intro h1
    rw [hs, if_pos h1]
  · intro h1 h2
    rw [hs, if_neg (by simp [h1]), if_pos h2]
  · intro h1 h2
    rw [hs, if_neg (by simp [h1]), if_neg (by simp [h2])]
  · rfl
  · rfl

/-- C3 witness: the general precedence rule applied to the item
`{similarity: 0.5, score: 0.9}`. -/
theorem normalize_similarity_rule_witness :
    isNumberT (jsOptGet (JSVal.obj [("similarity", JSVal.num (1/2)),
      ("score", JSVal.num (9/10))]) "similarity") = true ∧
    jsOptGet (normItem (JSVal.obj [("similarity", JSVal.num (1/2)),
      ("score", JSVal.num (9/10))])) "similarity" =
      jsOptGet (JSVal.obj [("similarity", JSVal.num (1/2)),
        ("score", JSVal.num (9/10))]) "similarity" :=
  ⟨by decide,
    (normalize_similarity_rule (JSVal.obj [("similarity", JSVal.num (1/2)),
      ("score", JSVal.num (9/10))])).1 (by decide)⟩

/-- C10: the `success` field of every normalized response is the boolean
coercion of `raw.success`: false exactly when that value is absent, null,
false, 0, NaN or the empty string, true for every other value. -/
theorem normalize_success_boolean_coercion (raw : JSVal) (now : String) :
    jsOptGet (normalizeQueryResponse raw now) "success" =
      .bool (specBooleanCoercion (jsOptGet raw "success")) := by
  have h : jsOptGet (normalizeQueryResponse raw now) "success" =
      .bool (jsTruthy (jsOptGet raw "success")) := by
    simp [normalizeQueryResponse, jsOptGet, lookupField]
  rw [h, jsTruthy_eq_specBooleanCoercion]

/-- C4: when the raw item's `metadata` is an object, every key of it
appears in the normalized metadata and carries the raw metadata's value —
the spread written after the nine synthesized entries wins on key
collisions (last-write-wins). -/
theorem normalize_metadata_spread_wins (r : JSVal) (fs : List (String × JSVal))
    (k : String) (hm : jsOptGet r "metadata" = .obj fs)
    (hk : containsKey fs k = true) :
    k ∈ objFieldKeys (jsOptGet (normItem r) "metadata") ∧
    jsOptGet (jsOptGet (normItem r) "metadata") k = lookupField fs k := by
  have hmeta : jsOptGet (normItem r) "metadata" =
      .obj (mkObj (synthMeta r ++ metaSpread (jsOptGet r "metadata"))) := by
    simp [normItem, jsOptGet, lookupField]
  rw [hmeta, hm]
  have hsp : metaSpread (JSVal.obj fs) = fs := rfl
  rw [hsp, mkObj_synth_append]
  constructor
  · show k ∈ fieldKeys (foldIns (synthMeta r) fs)
    rw [← containsKey_iff_mem, containsKey_foldIns, hk]
    simp
  · show lookupField (foldIns (synthMeta r) fs) k = lookupField fs k
    rw [lookupField_foldIns fs (synthMeta r) k (nodup_synthMeta r), if_pos hk]

/-- C4 witness: a raw metadata `score` overrides the synthesized `score`
entry. -/
theorem normalize_metadata_spread_wins_witness :
    jsOptGet (JSVal.obj [("score", JSVal.num 1),
        ("metadata", JSVal.obj [("score", JSVal.str "mine")])]) "metadata" =
      .obj [("score", JSVal.str "mine")] ∧
    containsKey [("score", JSVal.str "mine")] "score" = true ∧
    jsOptGet (jsOptGet (normItem (JSVal.obj [("score", JSVal.num 1),
        ("metadata", JSVal.obj [("score", JSVal.str "mine")])])) "metadata")
      "score" = lookupField [("score", JSVal.str "mine")] "score" :=
  ⟨by rfl, by decide,
    (normalize_metadata_spread_wins
      (JSVal.obj [("score", JSVal.num 1),
        ("metadata", JSVal.obj [("score", JSVal.str "mine")])])
      [("score", JSVal.str "mine")] "score" (by rfl) (by decide)).2⟩

/-- C5 (counterexample): `normalize` as claimed — depending on the raw
value alone — is refuted: on a payload without a `timestamp`, the output
embeds the current instant, so two invocations at different instants
differ. -/
theorem normalize_clock_sensitivity_counterexample :
    normalizeQueryResponse JSVal.null "1970-01-01T00:00:00.000Z" ≠
      normalizeQueryResponse JSVal.null "2024-01-01T00:00:00.000Z" :=
  ne_of_jsBeq_false (by decide)

/-- C5 (amended): both core functions are deterministic in their explicit
inputs once the clock is accounted for — `normalize` depends only on the
raw value whenever the payload carries a present (non-nullish)
`timestamp`, and `extractLinks` depends only on its text. -/
theorem normalize_deterministic_given_timestamp (raw : JSVal) (n1 n2 t : String)
    (h : isNullish (jsOptGet raw "timestamp") = false) :
    normalizeQueryResponse raw n1 = normalizeQueryResponse raw n2 ∧
    extractLinksFromWebContent t = extractLinksFromWebContent t := by
  refine ⟨?_, rfl⟩
  unfold normalizeQueryResponse
  rw [nullishOr_of_not_nullish (JSVal.str n1) h,
    nullishOr_of_not_nullish (JSVal.str n2) h]

/-- C5 witness: a payload with a timestamp normalizes identically at two
different clock readings. -/
theorem normalize_deterministic_given_timestamp_witness :
    isNullish (jsOptGet (JSVal.obj [("timestamp", JSVal.str "T")]) "timestamp")
        = false ∧
    normalizeQueryResponse (JSVal.obj [("timestamp", JSVal.str "T")]) "A" =
      normalizeQueryResponse (JSVal.obj [("timestamp", JSVal.str "T")]) "B" :=
  ⟨by decide,
    (normalize_deterministic_given_timestamp
      (JSVal.obj [("timestamp", JSVal.str "T")]) "A" "B" "x" (by decide)).1⟩

/-- C6: on a heading `### 📈 Most Popular Results:` followed by the bullet
`🔗 **Example Site**` and the line `https://example.com`, the extractor
returns exactly one entry with that title and URL, under the canonical
section label `Most Popular Results`. -/
theorem extract_popular_results_example :
    extractLinksFromWebContent
        "### 📈 Most Popular Results:\n🔗 **Example Site**\nhttps://example.com" =
      [⟨"Example Site", "https://example.com", some "Most Popular Results"⟩] := by
  decide

theorem scanUrl_some_ne_nil :
    ∀ (ls : List (List Char)) (u : List Char), scanUrl ls = some u → u ≠ [] := by
  intro ls
  induction ls with
  | nil =>
      intro u h
      simp [scanUrl] at h
  | cons hd tl ih =>
      intro u h
      rw [scanUrl_cons] at h
      by_cases h1 : trimChars hd = []
      · rw [if_pos h1] at h
        exact ih u h
      · rw [if_neg h1] at h
        by_cases h2 : isUrlLine (trimChars hd) = true
        · rw [if_pos h2] at h
          injection h with h
          rw [← h]
          exact h1
        · simp only [Bool.not_eq_true] at h2
          rw [h2, if_neg (by simp)] at h
          by_cases h3 : (isBulletStart (trimChars hd) || isHeadingStart (trimChars hd)) = true
          · rw [if_pos h3] at h
            cases h
          · rw [if_neg h3] at h
            exact ih u h

theorem stringMk_eq_empty_iff (u : List Char) : String.mk u = "" ↔ u = [] :=
  ⟨fun h => congrArg String.data h, fun h => by rw [h]⟩

/-- C7: a matched bullet line contributes an entry exactly when the
captured, trimmed title is non-empty and the forward scan finds a URL; in
particular a bullet whose scan stops (at a new bullet or heading, or at
end of input) before any URL line contributes no entry. -/
theorem extract_bullet_emission (sec : Option String) (l : List Char)
    (ls : List (List Char)) (g : List Char)
    (hh : headingCapture (trimChars l) = none)
    (hb : bulletTitle (trimChars l) = some g) :
    extractAux sec (l :: ls) =
      (if String.mk (trimChars g) ≠ "" ∧ (scanUrl ls).isSome = true
       then [⟨String.mk (trimChars g), String.mk ((scanUrl ls).getD []), sec⟩]
       else []) ++ extractAux sec ls := by
  have hstep : extractAux sec (l :: ls) =
      (if String.mk (trimChars g) ≠ "" ∧ String.mk ((scanUrl ls).getD []) ≠ ""
       then [⟨String.mk (trimChars g), String.mk ((scanUrl ls).getD []), sec⟩]
       else []) ++ extractAux sec ls := by
    simp only [extractAux, hh, hb]
  rw [hstep]
  cases hscan : scanUrl ls with
  | none => simp [stringMk_eq_empty_iff]
  | some u =>
      have hne := scanUrl_some_ne_nil ls u hscan
      simp [stringMk_eq_empty_iff, hne]

/-- C7 witness: a bullet at end of input (no URL line at all) emits
nothing, matching the emptiness of the emission condition. -/
theorem extract_bullet_emission_witness :
    headingCapture (trimChars ("🔗 **T**".data)) = none ∧
    bulletTitle (trimChars ("🔗 **T**".data)) = some ("T".data) ∧
    extractAux none ["🔗 **T**".data] =
      (if String.mk (trimChars ("T".data)) ≠ "" ∧
          (scanUrl ([] : List (List Char))).isSome = true
       then [⟨String.mk (trimChars ("T".data)),
              String.mk ((scanUrl ([] : List (List Char))).getD []), none⟩]
       else []) ++ extractAux none [] :=
  ⟨by decide, by decide,
    extract_bullet_emission none ("🔗 **T**".data) [] ("T".data)
      (by decide) (by decide)⟩

/-- Modelled from the claim of C8 (for refutation): a URL scan that skips
blank lines only and otherwise terminates at the first non-blank line —
accepting it when it is a bare URL, abandoning the entry otherwise, since
per the claim no other kind of non-blank line is passed over. -/
def scanUrlClaimed : List (List Char) → Option (List Char)
  | [] => none
  | l :: ls =>
      let next := trimChars l
      if next = [] then scanUrlClaimed ls
      else if isUrlLine next then some next
      else none

/-- C8 counterexample: with the non-blank, non-URL, non-bullet,
non-heading line `hello` between the bullet and the URL, the code's scan
passes over `hello` and still accepts the URL, while the scan the claim
describes terminates without one. -/
theorem scanUrl_passes_over_nonblank_counterexample :
    scanUrl ["hello".data, "https://x.com".data] = some ("https://x.com".data) ∧
    scanUrlClaimed ["hello".data, "https://x.com".data] = none ∧
    trimChars ("hello".data) ≠ [] ∧
    isUrlLine (trimChars ("hello".data)) = false ∧
    isBulletStart (trimChars ("hello".data)) = false ∧
    isHeadingStart (trimChars ("hello".data)) = false := by
  decide

/-- The result list the normalizer maps over: `raw.results` when it is an
array, else the empty list (api.ts line 22). -/
def rawResults (raw : JSVal) : List JSVal :=
  match jsOptGet raw "results" with
  | .arr rs => rs
  | _ => []

theorem normalizeQueryResponse_eq (raw : JSVal) (now : String) :
    normalizeQueryResponse raw now =
      .obj [("success", .bool (jsTruthy (jsOptGet raw "success"))),
            ("message", nullishOr (jsOptGet raw "message") (.str "")),
            ("results", .arr ((rawResults raw).map normItem)),
            ("action", nullishOr (jsOptGet raw "action")
              (nullishOr (jsOptGet raw "action_type") (.str "search"))),
            ("timestamp", nullishOr (jsOptGet raw "timestamp") (.str now)),
            ("query", nullishOr (jsOptGet raw "query") (.str "")),
            ("translation", jsOptGet raw "translation")] := by
  unfold normalizeQueryResponse rawResults
  cases jsOptGet raw "results" <;> rfl

theorem nullishOr_undefined_left (d : JSVal) : nullishOr .undefined d = d := rfl

theorem nullishOr_undefined_right_of_ne_null (v : JSVal) (h : v ≠ .null) :
    nullishOr v .undefined = v := by
  cases v with
  | null => exact absurd rfl h
  | _ => rfl

theorem sim_pick_idem (x y : JSVal) :
    (if isNumberT (if isNumberT x then x else if isNumberT y then y else .undefined)
     then (if isNumberT x then x else if isNumberT y then y else .undefined)
     else .undefined) =
      (if isNumberT x then x else if isNumberT y then y else .undefined) := by
  by_cases hx : isNumberT x = true
  · simp [hx]
  · simp only [Bool.not_eq_true] at hx
    by_cases hy : isNumberT y = true
    · simp [hx, hy]
    · simp only [Bool.not_eq_true] at hy
      have hS : (if isNumberT x = true then x
          else if isNumberT y = true then y else JSVal.undefined) = JSVal.undefined := by
        rw [if_neg (by simp [hx]), if_neg (by simp [hy])]
      rw [hS]
      rfl

/-- Feeding a normalized item back through the per-item mapping is the
identity, as long as its `source` value is not null (a null `source` —
possible only via a null `document_name` — re-normalizes to undefined). -/
theorem normItem_idem (r : JSVal)
    (h : nullishOr (jsOptGet r "source") (jsOptGet r "document_name") ≠ .null) :
    normItem (normItem r) = normItem r := by
  set i := normItem r with hi
  have rc : jsOptGet i "content" =
      nullishOr (jsOptGet r "content")
        (nullishOr (jsOptGet r "summary")
          (nullishOr (jsOptGet r "best_sentence") (.str ""))) := by
    rw [hi]; simp [normItem, jsOptGet, lookupField]
  have rm : jsOptGet i "metadata" =
      .obj (mkObj (synthMeta r ++ metaSpread (jsOptGet r "metadata"))) := by
    rw [hi]; simp [normItem, jsOptGet, lookupField]
  have rs : jsOptGet i "similarity" =
      (if isNumberT (jsOptGet r "similarity") then jsOptGet r "similarity"
       else if isNumberT (jsOptGet r "score") then jsOptGet r "score"
       else .undefined) := by
    rw [hi]; simp [normItem, jsOptGet, lookupField]
  have rsrc : jsOptGet i "source" =
      nullishOr (jsOptGet r "source") (jsOptGet r "document_name") := by
    rw [hi]; simp [normItem, jsOptGet, lookupField]
  have rsum : jsOptGet i "summary" = .undefined := by
    rw [hi]; simp [normItem, jsOptGet, lookupField]
  have rbs : jsOptGet i "best_sentence" = .undefined := by
    rw [hi]; simp [normItem, jsOptGet, lookupField]
  have rdn : jsOptGet i "document_name" = .undefined := by
    rw [hi]; simp [normItem, jsOptGet, lookupField]
  have rsc : jsOptGet i "score" = .undefined := by
    rw [hi]; simp [normItem, jsOptGet, lookupField]
  show normItem i = i
  unfold normItem
  rw [rc, rm, rs, rsrc, rsum, rbs, rdn, rsc]
  rw [show metaSpread (JSVal.obj (mkObj (synthMeta r ++
      metaSpread (jsOptGet r "metadata")))) =
    mkObj (synthMeta r ++ metaSpread (jsOptGet r "metadata")) from rfl]
  rw [mkObj_absorb_of_keys (synthMeta r) (synthMeta i)
    (metaSpread (jsOptGet r "metadata"))
    (by rw [fieldKeys_synthMeta, fieldKeys_synthMeta]) (nodup_synthMeta r)]
  simp only [nullishOr_undefined_left]
  have hCnn : isNullish (nullishOr (jsOptGet r "content")
      (nullishOr (jsOptGet r "summary")
        (nullishOr (jsOptGet r "best_sentence") (.str ""))))= false :=
    isNullish_nullishOr _ (isNullish_nullishOr _ (isNullish_nullishOr _ rfl))
  rw [nullishOr_of_not_nullish _ hCnn]
  rw [show (if isNumberT JSVal.undefined = true then JSVal.undefined
      else JSVal.undefined) = JSVal.undefined from rfl]
  rw [sim_pick_idem (jsOptGet r "similarity") (jsOptGet r "score")]
  rw [nullishOr_undefined_right_of_ne_null _ h]
  rw [hi]
  rfl

/-- C9 counterexample: the claim fails as stated — a result item whose
`document_name` is null yields `source: null`, which a second
normalization turns into `source: undefined`, so re-normalizing is not the
identity on every raw input. -/
theorem normalize_not_idempotent_counterexample :
    normalizeQueryResponse
        (normalizeQueryResponse
          (.obj [("results", .arr [.obj [("document_name", JSVal.null)]])]) "T") "T" ≠
      normalizeQueryResponse
        (.obj [("results", .arr [.obj [("document_name", JSVal.null)]])]) "T" :=
  ne_of_jsBeq_false (by decide)

/-- C9 (amended): re-normalizing the normalizer's own output is the
identity for every raw payload in which no result item carries a null
`source` value (i.e. `r.source ?? r.document_name` is never exactly null);
no other field is corrupted by re-normalization. -/
theorem normalize_idempotent_amended (raw : JSVal) (n1 n2 : String)
    (h : ∀ r ∈ rawResults raw,
      nullishOr (jsOptGet r "source") (jsOptGet r "document_name") ≠ .null) :
    normalizeQueryResponse (normalizeQueryResponse raw n1) n2 =
      normalizeQueryResponse raw n1 := by
  have hmap : ((rawResults raw).map normItem).map normItem
      = (rawResults raw).map normItem := by
    rw [List.map_map]
    apply List.map_congr_left
    intro r hr
    show normItem (normItem r) = normItem r
    exact normItem_idem r (h r hr)
  have hmap2 : (rawResults raw).map (normItem ∘ normItem)
      = (rawResults raw).map normItem := by
    rw [← List.map_map]
    exact hmap
  rw [normalizeQueryResponse_eq raw n1, normalizeQueryResponse_eq _ n2]
  simp [jsOptGet, lookupField, rawResults, jsTruthy, nullishOr_undefined_left,
    nullishOr_stable, isNullish_nullishOr, isNullish, hmap, hmap2]
  constructor
  · intro a ha
    exact normItem_idem a (h a ha)
  · exact nullishOr_stable _ _ (isNullish_nullishOr _ rfl)

/-- C9 witness: a payload whose single result item carries a string
`source` re-normalizes to itself. -/
theorem normalize_idempotent_amended_witness :
    (∀ r ∈ rawResults (JSVal.obj [("results",
        JSVal.arr [JSVal.obj [("source", JSVal.str "s")]])]),
      nullishOr (jsOptGet r "source") (jsOptGet r "document_name") ≠ JSVal.null) ∧
    normalizeQueryResponse (normalizeQueryResponse
        (JSVal.obj [("results",
          JSVal.arr [JSVal.obj [("source", JSVal.str "s")]])]) "T") "U" =
      normalizeQueryResponse
        (JSVal.obj [("results",
          JSVal.arr [JSVal.obj [("source", JSVal.str "s")]])]) "T" := by
  have hh : ∀ r ∈ rawResults (JSVal.obj [("results",
      JSVal.arr [JSVal.obj [("source", JSVal.str "s")]])]),
      nullishOr (jsOptGet r "source") (jsOptGet r "document_name") ≠ JSVal.null := by
    intro r hr
    have hrs : r = JSVal.obj [("source", JSVal.str "s")] := List.mem_singleton.mp hr
    rw [hrs]
    intro hc
    rw [show nullishOr (jsOptGet (JSVal.obj [("source", JSVal.str "s")]) "source")
        (jsOptGet (JSVal.obj [("source", JSVal.str "s")]) "document_name") =
      JSVal.str "s" from rfl] at hc
    exact JSVal.noConfusion hc
  exact ⟨hh, normalize_idempotent_amended _ "T" "U" hh⟩

/-- C8 witness: the characterization instantiated on a scan that passes
one blank line and accepts the URL behind it. -/
theorem scanUrl_eq_some_iff_witness :
    scanUrl ["".data, "https://a.com".data] = some ("https://a.com".data) :=
  (scanUrl_eq_some_iff ["".data, "https://a.com".data]
      ("https://a.com".data)).mpr
    ⟨["".data], "https://a.com".data, [], rfl, by decide, by decide,
      by
        intro p hp
        rw [List.mem_singleton.mp hp]
        exact ⟨by decide, by decide, by decide⟩⟩
